import Mathlib

/-!
Verification of the storage benchmark (`src/main.py`).

The Python program is shallowly embedded below.  Machine-level collaborators
are parameters of the embedding:

* `sha1 : List ℕ → List ℕ` stands for `hashlib.sha1` applied to the
  concatenation of the chunks fed to `update` (a streaming hash over chunks
  equals the hash of the concatenated bytes);
* entropy oracles stand for `os.urandom` (a stream of bytes per file);
* a listing oracle stands for `os.listdir`, whose enumeration order is
  unspecified;
* per-phase elapsed times are oracle rationals standing for `time.time()`
  differences;
* Python `float` values that only flow through arithmetic and comparisons are
  modelled as rationals, and `float(...)` / `int(...)` string parsing are
  oracle parameters.

A directory is an association list from file name to byte content, and bytes
are natural numbers.  Failures (`ZeroDivisionError`, `ValueError`,
`FileNotFoundError`, a diverging loop) are `Option.none`.
-/

namespace StorageBench

/-- One byte-content file system: an association list of (name, bytes). -/
abbrev FS := List (String × List ℕ)

/-- Lookup of a file's content by name, as Python `open(path)` finds it. -/
def fsGet : FS → String → Option (List ℕ)
  | [], _ => none
  | e :: rest, p => if e.1 = p then some e.2 else fsGet rest p

/-- Embedding of `os.path.exists`. -/
def fsExists (fs : FS) (p : String) : Bool := (fsGet fs p).isSome

/-- Embedding of a successful `os.remove`: drop the named entry. -/
def fsRemove : FS → String → FS
  | [], _ => []
  | e :: rest, p => if e.1 = p then fsRemove rest p else e :: fsRemove rest p

/-- Python `set.add` on a list kept duplicate-free. -/
def insertSet (x : String) (l : List String) : List String :=
  if x ∈ l then l else x :: l

/-- The path `f'{i}.bin'` used by the write phase (line 79). -/
def fileName (i : ℕ) : String := toString i ++ ".bin"

/-- Line 77 / line 103: `bytes(20)`, the all-zero 20-byte aggregate. -/
def newDigest : List ℕ := List.replicate 20 0

/-- Line 97 / line 110: `bytes(x ^ y for x, y in zip(a, b))`. -/
def combine (a b : List ℕ) : List ℕ := List.zipWith Nat.xor a b

/-- The sixteen lowercase hex digits. -/
def hexChars : List Char := "0123456789abcdef".data

/-- Hex digit for a value below 16. -/
def hexDigit (n : ℕ) : Char := hexChars.getD n '0'

/-- Two lowercase hex characters of one byte. -/
def byteHex (b : ℕ) : List Char := [hexDigit (b / 16), hexDigit (b % 16)]

/-- Embedding of `bytes.hex()`. -/
def toHex (bs : List ℕ) : String := String.mk ((bs.map byteHex).flatten)

/-- The per-file chunk loop of `write` (lines 88-93):

    while to_write > 0:
        num_bytes = min(to_write, options.buffer_size)
        file_content = os.urandom(num_bytes)
        to_write -= num_bytes
        ...

`eps` is the entropy stream for this file and `pos` the number of entropy
bytes consumed so far.  The loop is run on fuel; `none` means the fuel was
exhausted, which witnesses divergence when it holds for every fuel.
Returns the list of chunks generated, in order.
-/
def writeChunks (eps : ℕ → ℕ) (bs : ℕ) : ℕ → ℕ → ℕ → Option (List (List ℕ))
  | _, 0, _ => some []
  | 0, _ + 1, _ => none
  | fuel + 1, toWrite + 1, pos =>
    let tw := toWrite + 1
    let n := min tw bs
    (writeChunks eps bs fuel (tw - n) (pos + n)).map
      (fun rest => ((List.range n).map fun j => eps (pos + j)) :: rest)

/-- The index loop of `write` (lines 78-97).  For each index: if the path exists
the index is skipped; otherwise the file is created with the chunk loop's
bytes, the path is added to the tracked set, and the file's hash is combined
into the aggregate.
-/
def writeLoop (sha1 : List ℕ → List ℕ) (epsw : ℕ → ℕ → ℕ) (size bs : ℕ) :
    List ℕ → List ℕ → FS → List String → Option (List ℕ × FS × List String)
  | [], agg, fs, tracked => some (agg, fs, tracked)
  | i :: rest, agg, fs, tracked =>
    if fsExists fs (fileName i) then writeLoop sha1 epsw size bs rest agg fs tracked
    else
      match writeChunks (epsw i) bs size size 0 with
      | none => none
      | some chunks =>
        let content := chunks.flatten
        writeLoop sha1 epsw size bs rest (combine agg (sha1 content))
          (fs ++ [(fileName i, content)]) (insertSet (fileName i) tracked)

/-- Embedding of `write` (lines 76-99), returning the lowercase hex aggregate,
the resulting directory and the tracked-file set. -/
def write (sha1 : List ℕ → List ℕ) (epsw : ℕ → ℕ → ℕ) (count size bs : ℕ)
    (fs : FS) (tracked : List String) : Option (String × FS × List String) :=
  (writeLoop sha1 epsw size bs (List.range count) newDigest fs tracked).map
    (fun r => (toHex r.1, r.2.1, r.2.2))

/-- The listing loop of `read` (lines 104-110).  Each listed name is opened
(`none` embeds the `FileNotFoundError` when the name vanished) and its bytes
are hashed; `file.read(buffer_size)` returns nothing when the buffer size is
zero, so the bytes actually read are empty in that case.
-/
def readLoop (sha1 : List ℕ → List ℕ) (bs : ℕ) (fs : FS) :
    List String → List ℕ → Option (List ℕ)
  | [], agg => some agg
  | nm :: rest, agg =>
    match fsGet fs nm with
    | none => none
    | some content =>
      readLoop sha1 bs fs rest (combine agg (sha1 (if bs = 0 then [] else content)))

/-- Embedding of `read` (lines 102-112); `listing` is what `os.listdir`
yielded. -/
def read (sha1 : List ℕ → List ℕ) (bs : ℕ) (fs : FS) (listing : List String) :
    Option String :=
  (readLoop sha1 bs fs listing newDigest).map toHex

/-- The unit table of `format` (lines 121-127), largest first. -/
def formatUnits : List (ℚ × String) :=
  [(1024 ^ 4, "TiB"), (1024 ^ 3, "GiB"), (1024 ^ 2, "MiB"), (1024, "KiB"), (1, "B")]

/-- The loop of `format` (lines 129-133): skip units whose size exceeds the
number, return the first remaining one; `none` embeds the `ValueError` raised
when the table is exhausted (line 135). -/
def formatLoop (number : ℚ) : List (ℚ × String) → Option (ℚ × String)
  | [] => none
  | (us, u) :: rest => if number < us then formatLoop number rest else some (number / us, u)

/-- Embedding of `format` (lines 120-135). -/
def format (number : ℚ) : Option (ℚ × String) := formatLoop number formatUnits

/-- The unit table of `parse_size` (lines 140-150), in source order. -/
def sizeUnits : List (ℕ × String) :=
  [(1000 ^ 4, "tb"), (1024 ^ 4, "tib"), (1000 ^ 3, "gb"), (1024 ^ 3, "gib"),
   (1000 ^ 2, "mb"), (1024 ^ 2, "mib"), (1000, "kb"), (1024, "kib"), (1, "b")]

/-- Python `int(...)` applied to a float value: truncation toward zero. -/
def truncQ (q : ℚ) : ℤ := if 0 ≤ q then ⌊q⌋ else ⌈q⌉

/-- Python `str.lower()` over the character sequence. -/
def strLower (s : String) : String := String.mk (s.data.map Char.toLower)

/-- Python `str.endswith(u)` over the character sequence. -/
def strEndsWith (s u : String) : Bool := u.data.isSuffixOf s.data

/-- Python slicing `s[:-n]` for `0 < n ≤ len(s)`: all but the last `n`
characters. -/
def strDropRight (s : String) (n : ℕ) : String :=
  String.mk (s.data.take (s.data.length - n))

/-- The suffix loop of `parse_size` (lines 152-156): for the first unit the
lowered text ends with, parse the remaining prefix as a float (`pf`, `none`
embedding `ValueError`), multiply by the unit size and truncate to an
integer. -/
def parseSizeLoop (pf : String → Option ℚ) (t : String) :
    List (ℕ × String) → Option (Option ℤ)
  | [] => none
  | (size, unit) :: rest =>
    if strEndsWith t unit then
      some ((pf (strDropRight t unit.length)).map fun q => truncQ (q * size))
    else parseSizeLoop pf t rest

/-- Embedding of `parse_size` (lines 138-158): lower-case, try the suffix
table, otherwise parse the whole string as a plain integer (`pint`). -/
def parse_size (pf : String → Option ℚ) (pint : String → Option ℤ)
    (text : String) : Option ℤ :=
  match parseSizeLoop pf (strLower text) sizeUnits with
  | some r => r
  | none => pint (strLower text)

/-- The configuration surface `run_benchmark` consumes. -/
structure Cfg where
  size : ℕ
  count : ℕ
  bufferSize : ℕ
  iterations : ℕ
  empty : Bool
  writeOnce : Bool

/-- The mutable loop state of `run_benchmark` (lines 165-177). -/
structure BState where
  fs : FS
  files : List String
  writeHashes : List String
  readHashes : List String
  writeHash : Option String
  elapsedWrite : ℚ
  elapsedRead : ℚ

/-- Observable events of one iteration: whether the write phase ran, the
digests compared, and the paths removed by the per-iteration cleanup. -/
structure IterTrace where
  wrote : Bool
  writeHex : String
  readHex : String
  removed : List String

/-- Python division, raising (`none`) on a zero divisor. -/
def pyDiv (a b : ℚ) : Option ℚ := if b = 0 then none else some (a / b)

/-- The `for file in files: os.remove(file)` cleanup (lines 205-206 and
210-211); `os.remove` raises on a missing path. -/
def removeFiles : FS → List String → Option FS
  | fs, [] => some fs
  | fs, p :: rest => if fsExists fs p then removeFiles (fsRemove fs p) rest else none

/-- The part of one benchmark iteration after the write decision (lines
194-208): the read phase, mismatch recording (lines 200-202) and the
per-iteration cleanup (lines 204-208).  `wrote`, `wh`, `fs1`, `files1` and
`ew` are the write flag, current write digest, directory, tracked-file set
and elapsed-write accumulator the write decision produced. -/
def iterFinish (cfg : Cfg) (sha1 : List ℕ → List ℕ)
    (permi : List String → List String) (rt : ℚ) (st : BState) (wrote : Bool)
    (wh : String) (fs1 : FS) (files1 : List String) (ew : ℚ) :
    Option (BState × IterTrace) :=
  match read sha1 cfg.bufferSize fs1 (permi (fs1.map Prod.fst)) with
  | none => none
  | some rh =>
    if cfg.writeOnce then
      some (⟨fs1, files1,
        if rh ≠ wh then insertSet wh st.writeHashes else st.writeHashes,
        if rh ≠ wh then insertSet rh st.readHashes else st.readHashes,
        some wh, ew, st.elapsedRead + rt⟩, ⟨wrote, wh, rh, []⟩)
    else
      match removeFiles fs1 files1 with
      | none => none
      | some fs2 =>
        some (⟨fs2, [],
          if rh ≠ wh then insertSet wh st.writeHashes else st.writeHashes,
          if rh ≠ wh then insertSet rh st.readHashes else st.readHashes,
          some wh, ew, st.elapsedRead + rt⟩, ⟨wrote, wh, rh, files1⟩)

/-- One iteration of the benchmark loop (lines 178-208): the write decision
(`if write_hash is None or not options.write_once`, line 188) feeding
`iterFinish`. -/
def iterStep (cfg : Cfg) (sha1 : List ℕ → List ℕ) (epsi : ℕ → ℕ → ℕ)
    (permi : List String → List String) (wt rt : ℚ) (st : BState) :
    Option (BState × IterTrace) :=
  match (match st.writeHash with
    | none =>
      (write sha1 epsi cfg.count cfg.size cfg.bufferSize st.fs st.files).map
        (fun r => (true, r.1, r.2.1, r.2.2, st.elapsedWrite + wt))
    | some h =>
      if cfg.writeOnce then some (false, h, st.fs, st.files, st.elapsedWrite)
      else
        (write sha1 epsi cfg.count cfg.size cfg.bufferSize st.fs st.files).map
          (fun r => (true, r.1, r.2.1, r.2.2, st.elapsedWrite + wt))) with
  | none => none
  | some (wrote, wh, fs1, files1, ew) =>
    iterFinish cfg sha1 permi rt st wrote wh fs1 files1 ew

/-- The iteration loop (`for iteration in range(options.iterations)`), run
from iteration index `i` for `n` further iterations, collecting traces. -/
def runLoop (cfg : Cfg) (sha1 : List ℕ → List ℕ) (eps : ℕ → ℕ → ℕ → ℕ)
    (perm : ℕ → List String → List String) (wT rT : ℕ → ℚ) :
    ℕ → ℕ → BState → Option (BState × List IterTrace)
  | _, 0, st => some (st, [])
  | i, n + 1, st => do
    let (st1, t) ← iterStep cfg sha1 (eps i) (perm i) (wT i) (rT i) st
    let (stF, ts) ← runLoop cfg sha1 eps perm wT rT (i + 1) n st1
    some (stF, t :: ts)

/-- Initial state of a run (lines 165-177, with line 162's optional clear). -/
def initState (cfg : Cfg) (fs : FS) : BState :=
  ⟨if cfg.empty then [] else fs, [], [], [], none, 0, 0⟩

/-- The benchmark through its loop and the end-of-run cleanup (lines 161-213):
final state, traces, the directory after the final removal, and the paths the
final removal deleted. -/
def runFiles (cfg : Cfg) (sha1 : List ℕ → List ℕ) (eps : ℕ → ℕ → ℕ → ℕ)
    (perm : ℕ → List String → List String) (wT rT : ℕ → ℚ) (fs : FS) :
    Option (BState × List IterTrace × FS × List String) := do
  let (st, traces) ← runLoop cfg sha1 eps perm wT rT 0 cfg.iterations (initState cfg fs)
  let fsF ← removeFiles st.fs st.files
  some (st, traces, fsF, st.files)

/-- The numeric results the report prints. -/
structure ReportOut where
  writeSpeed : ℚ
  writeUnit : String
  readSpeed : ℚ
  readUnit : String
  perFileWrite : ℚ
  perFileRead : ℚ

/-- The report computations (lines 221-242), in crash order: the two rate
divisions and `format` calls (lines 223-224), then the per-file divisions
(lines 237-238). -/
def report (size count : ℕ) (ew er : ℚ) : Option ReportOut := do
  let ws ← pyDiv (size * count : ℕ) ew
  let (wv, wu) ← format ws
  let rs ← pyDiv (size * count : ℕ) er
  let (rv, ru) ← format rs
  let pw ← pyDiv (1000 * ew) (count : ℕ)
  let pr ← pyDiv (1000 * er) (count : ℕ)
  some ⟨wv, wu, rv, ru, pw, pr⟩

/-- Embedding of `run_benchmark` (lines 161-242). -/
def run_benchmark (cfg : Cfg) (sha1 : List ℕ → List ℕ) (eps : ℕ → ℕ → ℕ → ℕ)
    (perm : ℕ → List String → List String) (wT rT : ℕ → ℚ) (fs : FS) :
    Option (BState × List IterTrace × FS × List String × ReportOut) := do
  let (st, traces, fsF, removed) ← runFiles cfg sha1 eps perm wT rT fs
  let rep ← report cfg.size cfg.count st.elapsedWrite st.elapsedRead
  some (st, traces, fsF, removed, rep)

/-- A stand-in content hash used by concrete witnesses: 20 bytes derived from
the content length. -/
def shaW : List ℕ → List ℕ := fun c => List.replicate 20 (c.length % 256)

/-- A concrete entropy stream used by concrete witnesses. -/
def epsW : ℕ → ℕ → ℕ := fun i j => i + j

/-- A concrete output of the write phase, used by witnesses. -/
def wOutW : String × FS × List String := (write shaW epsW 2 3 2 [] []).get (by decide)

/-- A concrete output of the benchmark loop, used by witnesses. -/
def rOutW : BState × List IterTrace × FS × List String :=
  (runFiles ⟨2, 1, 1, 1, false, false⟩ shaW (fun _ => epsW) (fun _ l => l)
    (fun _ => 1) (fun _ => 1) []).get (by decide)

/-! ### Digest algebra -/

theorem combine_assoc (a b c : List ℕ) :
    combine (combine a b) c = combine a (combine b c) := by
  induction a generalizing b c with
  | nil => simp [combine]
  | cons x xs ih =>
    cases b with
    | nil => simp [combine]
    | cons y ys =>
      cases c with
      | nil => simp [combine]
      | cons z zs =>
        simp only [combine, List.zipWith_cons_cons]
        exact List.cons_eq_cons.mpr ⟨Nat.xor_assoc x y z, ih ys zs⟩

theorem combine_comm (a b : List ℕ) : combine a b = combine b a := by
  induction a generalizing b with
  | nil => cases b <;> simp [combine]
  | cons x xs ih =>
    cases b with
    | nil => simp [combine]
    | cons y ys =>
      simp only [combine, List.zipWith_cons_cons]
      exact List.cons_eq_cons.mpr ⟨Nat.xor_comm x y, ih ys⟩

theorem combine_replicate_zero (x : List ℕ) (n : ℕ) (h : x.length = n) :
    combine (List.replicate n 0) x = x := by
  induction x generalizing n with
  | nil => subst h; simp [combine]
  | cons y ys ih =>
    subst h
    simp only [combine, List.length_cons, List.replicate_succ, List.zipWith_cons_cons]
    exact List.cons_eq_cons.mpr ⟨Nat.zero_xor y, ih ys.length rfl⟩

theorem combine_left_comm (b x y : List ℕ) :
    combine (combine b x) y = combine (combine b y) x := by
  rw [combine_assoc, combine_assoc, combine_comm x y]

/-- C2: the digest combine operation is byte-wise XOR of two 20-byte values;
it is associative and commutative, and the all-zero 20-byte sequence is its
identity: `combine identity x = x` for every 20-byte digest `x`. -/
theorem combine_xor_algebra :
    (∀ a b : List ℕ, combine a b = List.zipWith Nat.xor a b) ∧
    (∀ a b c : List ℕ, combine (combine a b) c = combine a (combine b c)) ∧
    (∀ a b : List ℕ, combine a b = combine b a) ∧
    (∀ x : List ℕ, x.length = 20 → combine newDigest x = x) :=
  ⟨fun _ _ => rfl, combine_assoc, combine_comm,
   fun x h => combine_replicate_zero x 20 h⟩

/-- Witness for C2 at a concrete 20-byte digest. -/
theorem combine_xor_algebra_witness :
    combine newDigest (List.replicate 20 7) = List.replicate 20 7 :=
  combine_xor_algebra.2.2.2 (List.replicate 20 7) (by simp)

/-! ### The chunk loop -/

theorem writeChunks_total (eps : ℕ → ℕ) {bs : ℕ} (hbs : 1 ≤ bs) :
    ∀ fuel toWrite pos, toWrite ≤ fuel →
      ∃ chunks, writeChunks eps bs fuel toWrite pos = some chunks ∧
        (chunks.map List.length).sum = toWrite ∧ ∀ c ∈ chunks, c.length ≤ bs := by
  intro fuel
  induction fuel with
  | zero =>
    intro toWrite pos h
    obtain rfl : toWrite = 0 := Nat.le_zero.mp h
    exact ⟨[], rfl, rfl, by simp⟩
  | succ f ih =>
    intro toWrite pos h
    match toWrite with
    | 0 => exact ⟨[], rfl, rfl, by simp⟩
    | k + 1 =>
      have hn1 : 1 ≤ min (k + 1) bs := le_min (Nat.succ_le_succ (Nat.zero_le k)) hbs
      have hrec : k + 1 - min (k + 1) bs ≤ f := by
        have : k + 1 - min (k + 1) bs ≤ k + 1 - 1 := Nat.sub_le_sub_left hn1 _
        omega
      obtain ⟨chunks, hc, hsum, hlen⟩ := ih (k + 1 - min (k + 1) bs) (pos + min (k + 1) bs) hrec
      refine ⟨((List.range (min (k + 1) bs)).map fun j => eps (pos + j)) :: chunks, ?_, ?_, ?_⟩
      · simp only [writeChunks, hc]
        rfl
      · simp only [List.map_cons, List.length_map, List.length_range, List.sum_cons, hsum]
        omega
      · intro c hcmem
        rcases List.mem_cons.mp hcmem with rfl | hmem
        · simp
        · exact hlen c hmem

theorem writeChunks_diverges (eps : ℕ → ℕ) :
    ∀ fuel toWrite pos, 0 < toWrite → writeChunks eps 0 fuel toWrite pos = none := by
  intro fuel
  induction fuel with
  | zero =>
    intro toWrite pos h
    match toWrite with
    | k + 1 => rfl
  | succ f ih =>
    intro toWrite pos h
    match toWrite with
    | k + 1 =>
      have := ih (k + 1) pos (Nat.succ_pos k)
      simp only [writeChunks, Nat.min_zero, Nat.sub_zero, Nat.add_zero] at this ⊢
      simp [this]

/-- C9: with `bufferSize ≥ 1` the per-file chunk loop terminates for every
`fileSize` and generates chunks totalling exactly `fileSize` bytes, each of at
most `bufferSize` bytes; with `bufferSize = 0` and `fileSize > 0` the loop
never terminates (it runs out of any amount of fuel, the remaining count never
decreasing). -/
theorem chunk_loop_behavior (eps : ℕ → ℕ) (fileSize bs : ℕ) :
    (1 ≤ bs → ∃ chunks, writeChunks eps bs fileSize fileSize 0 = some chunks ∧
        (chunks.map List.length).sum = fileSize ∧ ∀ c ∈ chunks, c.length ≤ bs) ∧
    (bs = 0 → 0 < fileSize → ∀ fuel pos, writeChunks eps 0 fuel fileSize pos = none) :=
  ⟨fun hbs => writeChunks_total eps hbs fileSize fileSize 0 le_rfl,
   fun _ hpos fuel pos => writeChunks_diverges eps fuel fileSize pos hpos⟩

/-- Witness for C9 at `fileSize = 5`, with buffer sizes 2 and 0. -/
theorem chunk_loop_behavior_witness :
    (writeChunks (fun _ => 3) 2 5 5 0).isSome = true ∧
    writeChunks (fun _ => 3) 0 4 5 7 = none := by
  obtain ⟨chunks, hc, -, -⟩ := (chunk_loop_behavior (fun _ => 3) 5 2).1 (by decide)
  exact ⟨by rw [hc]; rfl, (chunk_loop_behavior (fun _ => 3) 5 0).2 rfl (by decide) 4 7⟩

/-! ### The size formatter -/

theorem format_lt_one {q : ℚ} (h : q < 1) : format q = none := by
  have h4 : q < 1024 ^ 4 := lt_of_lt_of_le h (by norm_num)
  have h3 : q < 1024 ^ 3 := lt_of_lt_of_le h (by norm_num)
  have h2 : q < 1024 ^ 2 := lt_of_lt_of_le h (by norm_num)
  have h1 : q < 1024 := lt_of_lt_of_le h (by norm_num)
  simp [format, formatUnits, formatLoop, h, h1, h2, h3, h4]

theorem format_tier_B {q : ℚ} (hlo : 1 ≤ q) (hhi : q < 1024) :
    format q = some (q / 1, "B") := by
  have h4 : q < 1024 ^ 4 := lt_of_lt_of_le hhi (by norm_num)
  have h3 : q < 1024 ^ 3 := lt_of_lt_of_le hhi (by norm_num)
  have h2 : q < 1024 ^ 2 := lt_of_lt_of_le hhi (by norm_num)
  have h0 : ¬ q < 1 := not_lt.mpr hlo
  simp [format, formatUnits, formatLoop, h0, hhi, h2, h3, h4]

theorem format_tier_KiB {q : ℚ} (hlo : 1024 ≤ q) (hhi : q < 1024 ^ 2) :
    format q = some (q / 1024, "KiB") := by
  have h4 : q < 1024 ^ 4 := lt_of_lt_of_le hhi (by norm_num)
  have h3 : q < 1024 ^ 3 := lt_of_lt_of_le hhi (by norm_num)
  have h1 : ¬ q < 1024 := not_lt.mpr hlo
  simp [format, formatUnits, formatLoop, h1, hhi, h3, h4]

theorem format_tier_MiB {q : ℚ} (hlo : 1024 ^ 2 ≤ q) (hhi : q < 1024 ^ 3) :
    format q = some (q / 1024 ^ 2, "MiB") := by
  have h4 : q < 1024 ^ 4 := lt_of_lt_of_le hhi (by norm_num)
  have h2 : ¬ q < 1024 ^ 2 := not_lt.mpr hlo
  simp [format, formatUnits, formatLoop, h2, hhi, h4]

theorem format_tier_GiB {q : ℚ} (hlo : 1024 ^ 3 ≤ q) (hhi : q < 1024 ^ 4) :
    format q = some (q / 1024 ^ 3, "GiB") := by
  have h3 : ¬ q < 1024 ^ 3 := not_lt.mpr hlo
  simp [format, formatUnits, formatLoop, h3, hhi]

theorem format_tier_TiB {q : ℚ} (hlo : 1024 ^ 4 ≤ q) :
    format q = some (q / 1024 ^ 4, "TiB") := by
  have h4 : ¬ q < 1024 ^ 4 := not_lt.mpr hlo
  simp [format, formatUnits, formatLoop, h4]

theorem div_mem_Ico {q us : ℚ} (hpos : 0 < us) (hlo : us ≤ q) (hhi : q < 1024 * us) :
    1 ≤ q / us ∧ q / us < 1024 :=
  ⟨(one_le_div hpos).mpr hlo, (div_lt_iff₀ hpos).mpr hhi⟩

/-- C4 counterexample: the input 0 is non-negative, yet `format 0` raises
(the smallest threshold is 1 and `0 < 1`), so `formatSize` does not succeed
for every non-negative input. -/
theorem format_zero_fails : (0 : ℚ) ≤ 0 ∧ format 0 = none :=
  ⟨le_refl 0, format_lt_one (by norm_num)⟩

/-- C4 (amended): `format` fails exactly for inputs below 1 (in particular
for 0 and for negative input); for input at least 1 it succeeds, returning
the largest binary unit whose size the input is greater than or equal to,
with the scaled value lying in `[1, 1024)` except for the largest (TiB)
tier, where it is only bounded below by 1. -/
theorem format_characterization (q : ℚ) :
    (q < 1 → format q = none) ∧
    (1 ≤ q → q < 1024 → format q = some (q / 1, "B") ∧ 1 ≤ q / 1 ∧ q / 1 < 1024) ∧
    (1024 ≤ q → q < 1024 ^ 2 →
      format q = some (q / 1024, "KiB") ∧ 1 ≤ q / 1024 ∧ q / 1024 < 1024) ∧
    (1024 ^ 2 ≤ q → q < 1024 ^ 3 →
      format q = some (q / 1024 ^ 2, "MiB") ∧ 1 ≤ q / 1024 ^ 2 ∧ q / 1024 ^ 2 < 1024) ∧
    (1024 ^ 3 ≤ q → q < 1024 ^ 4 →
      format q = some (q / 1024 ^ 3, "GiB") ∧ 1 ≤ q / 1024 ^ 3 ∧ q / 1024 ^ 3 < 1024) ∧
    (1024 ^ 4 ≤ q → format q = some (q / 1024 ^ 4, "TiB") ∧ 1 ≤ q / 1024 ^ 4) := by
  refine ⟨fun h => format_lt_one h, fun hlo hhi => ?_, fun hlo hhi => ?_,
    fun hlo hhi => ?_, fun hlo hhi => ?_, fun hlo => ?_⟩
  · exact ⟨format_tier_B hlo hhi,
      (div_mem_Ico (by norm_num) hlo (by linarith)).1,
      (div_mem_Ico (by norm_num) hlo (by linarith)).2⟩
  · exact ⟨format_tier_KiB hlo hhi,
      (div_mem_Ico (by norm_num) hlo (by norm_num; linarith)).1,
      (div_mem_Ico (by norm_num) hlo (by norm_num; linarith)).2⟩
  · exact ⟨format_tier_MiB hlo hhi,
      (div_mem_Ico (by norm_num) hlo (by norm_num; linarith)).1,
      (div_mem_Ico (by norm_num) hlo (by norm_num; linarith)).2⟩
  · exact ⟨format_tier_GiB hlo hhi,
      (div_mem_Ico (by norm_num) hlo (by norm_num; linarith)).1,
      (div_mem_Ico (by norm_num) hlo (by norm_num; linarith)).2⟩
  · exact ⟨format_tier_TiB hlo, (one_le_div (by norm_num)).mpr hlo⟩

/-- Witness for C4 at the input 2048, which formats as KiB. -/
theorem format_characterization_witness :
    format 2048 = some (2048 / 1024, "KiB") ∧
      1 ≤ (2048 : ℚ) / 1024 ∧ (2048 : ℚ) / 1024 < 1024 :=
  (format_characterization 2048).2.2.1 (by norm_num) (by norm_num)

/-! ### The size parser -/

theorem parseSizeLoop_spec (pf : String → Option ℚ) (t : String) :
    ∀ units : List (ℕ × String),
      (∀ size unit, (units.find? fun su => strEndsWith t su.2) = some (size, unit) →
        parseSizeLoop pf t units =
          some ((pf (strDropRight t unit.length)).map fun q => truncQ (q * size))) ∧
      ((units.find? fun su => strEndsWith t su.2) = none →
        parseSizeLoop pf t units = none) := by
  intro units
  induction units with
  | nil => exact ⟨fun size unit h => by simp at h, fun _ => rfl⟩
  | cons su rest ih =>
    obtain ⟨su1, su2⟩ := su
    by_cases h : strEndsWith t su2
    · constructor
      · intro size unit hfind
        simp only [List.find?_cons, h] at hfind
        obtain ⟨rfl, rfl⟩ : su1 = size ∧ su2 = unit := by
          simpa [Prod.ext_iff] using hfind
        simp [parseSizeLoop, h]
      · intro hfind
        simp only [List.find?_cons, h] at hfind
        exact absurd hfind (by simp)
    · constructor
      · intro size unit hfind
        simp only [List.find?_cons, Bool.of_not_eq_true h] at hfind
        rw [parseSizeLoop, if_neg h]
        exact ih.1 size unit hfind
      · intro hfind
        simp only [List.find?_cons, Bool.of_not_eq_true h] at hfind
        rw [parseSizeLoop, if_neg h]
        exact ih.2 hfind

/-- C3: `parse_size` lower-cases its input and checks the suffixes in the
order tb, tib, gb, gib, mb, mib, kb, kib, b (the order of `sizeUnits`); for
the first matching suffix it parses the remaining prefix as a float,
multiplies by the unit's byte size (base 1000 for tb/gb/mb/kb, base 1024 for
tib/gib/mib/kib, 1 for b) and truncates to an integer; if no suffix matches,
the whole lowered string is parsed as a plain integer byte count. -/
theorem parse_size_characterization (pf : String → Option ℚ)
    (pint : String → Option ℤ) (text : String) :
    (∀ size unit,
      (sizeUnits.find? fun su => strEndsWith (strLower text) su.2) = some (size, unit) →
      parse_size pf pint text =
        (pf (strDropRight (strLower text) unit.length)).map fun q => truncQ (q * size)) ∧
    ((sizeUnits.find? fun su => strEndsWith (strLower text) su.2) = none →
      parse_size pf pint text = pint (strLower text)) := by
  constructor
  · intro size unit hfind
    have h := (parseSizeLoop_spec pf (strLower text) sizeUnits).1 size unit hfind
    rw [parse_size, h]
  · intro hfind
    have h := (parseSizeLoop_spec pf (strLower text) sizeUnits).2 hfind
    rw [parse_size, h]

/-- Witness for C3 at the input "4KiB": the first matching suffix is kib with
byte size 1024, and the remaining prefix "4" is handed to the float parser. -/
theorem parse_size_characterization_witness :
    parse_size (fun s => if s = "4" then some 4 else none) (fun _ => none) "4KiB" =
      (if strDropRight (strLower "4KiB") ("kib" : String).length = "4"
        then some (4 : ℚ) else none).map fun q => truncQ (q * (1024 : ℕ)) :=
  (parse_size_characterization (fun s => if s = "4" then some 4 else none)
    (fun _ => none) "4KiB").1 1024 "kib" (by decide)

/-! ### File-system lemmas -/

theorem fsGet_append_of_exists {fs : FS} {p : String} (h : fsExists fs p = true)
    (l : FS) : fsGet (fs ++ l) p = fsGet fs p := by
  induction fs with
  | nil => simp [fsExists, fsGet] at h
  | cons e rest ih =>
    by_cases he : e.1 = p
    · simp [fsGet, he]
    · simp only [fsExists, fsGet, he, if_false] at h ⊢
      exact ih h

theorem fsExists_append_left {fs : FS} {p : String} (h : fsExists fs p = true)
    (l : FS) : fsExists (fs ++ l) p = true := by
  simp [fsExists] at h ⊢
  rw [fsGet_append_of_exists (by simpa [fsExists] using h) l]
  exact h

theorem fsExists_of_append {fs l : FS} {p : String}
    (h : fsExists fs p = false) : fsExists (fs ++ l) p = fsExists l p := by
  induction fs with
  | nil => simp
  | cons e rest ih =>
    by_cases he : e.1 = p
    · simp [fsExists, fsGet, he] at h
    · simp only [fsExists, fsGet, List.cons_append, he, if_false] at h ⊢
      exact ih h

theorem fsGet_none_iff_not_mem {fs : FS} {p : String} :
    fsGet fs p = none ↔ p ∉ fs.map Prod.fst := by
  induction fs with
  | nil => simp [fsGet]
  | cons e rest ih =>
    by_cases he : e.1 = p
    · simp [fsGet, he]
    · simp [fsGet, he, ih, Ne.symm he]

theorem fsExists_true_iff {fs : FS} {p : String} :
    fsExists fs p = true ↔ p ∈ fs.map Prod.fst := by
  induction fs with
  | nil => simp [fsExists, fsGet]
  | cons e rest ih =>
    by_cases he : e.1 = p
    · simp [fsExists, fsGet, he]
    · have hne : ¬ p = e.1 := fun hc => he hc.symm
      simpa [fsExists, fsGet, he, hne] using ih

theorem fsExists_false_iff {fs : FS} {p : String} :
    fsExists fs p = false ↔ p ∉ fs.map Prod.fst := by
  constructor
  · intro h hm
    rw [fsExists_true_iff.mpr hm] at h
    exact Bool.noConfusion h
  · intro hm
    cases h : fsExists fs p
    · rfl
    · exact absurd (fsExists_true_iff.mp h) hm

theorem fsGet_fsRemove_ne {fs : FS} {p r : String} (h : r ≠ p) :
    fsGet (fsRemove fs p) r = fsGet fs r := by
  induction fs with
  | nil => rfl
  | cons e rest ih =>
    rw [fsRemove]
    by_cases he : e.1 = p
    · rw [if_pos he, ih, fsGet, if_neg (by rw [he]; exact fun hc => h hc.symm)]
    · rw [if_neg he]
      simp only [fsGet]
      by_cases her : e.1 = r
      · rw [if_pos her, if_pos her]
      · rw [if_neg her, if_neg her, ih]

theorem fsExists_fsRemove_ne {fs : FS} {p r : String} (h : r ≠ p) :
    fsExists (fsRemove fs p) r = fsExists fs r := by
  simp [fsExists, fsGet_fsRemove_ne h]

theorem fsGet_of_mem_nodup {fs : FS} (hnd : (fs.map Prod.fst).Nodup) :
    ∀ e ∈ fs, fsGet fs e.1 = some e.2 := by
  induction fs with
  | nil => simp
  | cons a rest ih =>
    simp only [List.map_cons, List.nodup_cons] at hnd
    intro e he
    rcases List.mem_cons.mp he with rfl | hmem
    · simp [fsGet]
    · have hne : a.1 ≠ e.1 := by
        intro hc
        exact hnd.1 (hc ▸ List.mem_map_of_mem Prod.fst hmem)
      simp only [fsGet, hne, if_false]
      exact ih hnd.2 e hmem

/-- Membership in the set-insert. -/
theorem mem_insertSet {x p : String} {l : List String} :
    p ∈ insertSet x l ↔ p = x ∨ p ∈ l := by
  by_cases h : x ∈ l
  · simp only [insertSet, if_pos h]
    constructor
    · exact Or.inr
    · rintro (rfl | hp)
      · exact h
      · exact hp
  · simp [insertSet, if_neg h]

theorem nodup_insertSet {x : String} {l : List String} (h : l.Nodup) :
    (insertSet x l).Nodup := by
  by_cases hx : x ∈ l
  · simpa [insertSet, hx] using h
  · rw [insertSet, if_neg hx]
    exact List.nodup_cons.mpr ⟨hx, h⟩

/-! ### Write-phase lemmas -/

theorem writeLoop_total (sha1 : List ℕ → List ℕ) (epsw : ℕ → ℕ → ℕ)
    {size bs : ℕ} (hbs : 1 ≤ bs) :
    ∀ (is : List ℕ) (agg : List ℕ) (fs : FS) (tracked : List String),
      ∃ res, writeLoop sha1 epsw size bs is agg fs tracked = some res := by
  intro is
  induction is with
  | nil => exact fun agg fs tracked => ⟨(agg, fs, tracked), rfl⟩
  | cons i rest ih =>
    intro agg fs tracked
    by_cases h : fsExists fs (fileName i)
    · obtain ⟨res, hres⟩ := ih agg fs tracked
      exact ⟨res, by rw [writeLoop, if_pos h]; exact hres⟩
    · obtain ⟨chunks, hc, -, -⟩ := writeChunks_total (epsw i) hbs size size 0 le_rfl
      obtain ⟨res, hres⟩ := ih (combine agg (sha1 chunks.flatten))
        (fs ++ [(fileName i, chunks.flatten)]) (insertSet (fileName i) tracked)
      refine ⟨res, ?_⟩
      rw [writeLoop, if_neg h, hc]
      exact hres

theorem writeLoop_frame (sha1 : List ℕ → List ℕ) (epsw : ℕ → ℕ → ℕ)
    (size bs : ℕ) :
    ∀ (is : List ℕ) (agg : List ℕ) (fs : FS) (tracked : List String) res
      (p : String),
      writeLoop sha1 epsw size bs is agg fs tracked = some res →
      fsExists fs p = true →
      fsGet res.2.1 p = fsGet fs p ∧ (p ∈ res.2.2 ↔ p ∈ tracked) := by
  intro is
  induction is with
  | nil =>
    intro agg fs tracked res p hres hp
    obtain rfl : (agg, fs, tracked) = res := by simpa [writeLoop] using hres
    exact ⟨rfl, Iff.rfl⟩
  | cons i rest ih =>
    intro agg fs tracked res p hres hp
    by_cases h : fsExists fs (fileName i)
    · rw [writeLoop, if_pos h] at hres
      exact ih agg fs tracked res p hres hp
    · rw [writeLoop, if_neg h] at hres
      cases hc : writeChunks (epsw i) bs size size 0 with
      | none => rw [hc] at hres; exact absurd hres (by simp)
      | some chunks =>
        rw [hc] at hres
        have hne : p ≠ fileName i := by
          intro hcontra
          rw [hcontra] at hp
          exact absurd hp (by simp [h])
        have hp1 : fsExists (fs ++ [(fileName i, chunks.flatten)]) p = true :=
          fsExists_append_left hp _
        obtain ⟨hget, htr⟩ := ih _ _ _ res p hres hp1
        refine ⟨?_, ?_⟩
        · rw [hget, fsGet_append_of_exists hp]
        · rw [htr, mem_insertSet]
          constructor
          · rintro (rfl | hmem)
            · exact absurd rfl hne
            · exact hmem
          · exact Or.inr

theorem writeLoop_tracked_provenance (sha1 : List ℕ → List ℕ)
    (epsw : ℕ → ℕ → ℕ) (size bs : ℕ) :
    ∀ (is : List ℕ) (agg : List ℕ) (fs : FS) (tracked : List String) res
      (p : String),
      writeLoop sha1 epsw size bs is agg fs tracked = some res →
      p ∈ res.2.2 → p ∈ tracked ∨ fsExists fs p = false := by
  intro is
  induction is with
  | nil =>
    intro agg fs tracked res p hres hp
    obtain rfl : (agg, fs, tracked) = res := by simpa [writeLoop] using hres
    exact Or.inl hp
  | cons i rest ih =>
    intro agg fs tracked res p hres hp
    by_cases h : fsExists fs (fileName i)
    · rw [writeLoop, if_pos h] at hres
      exact ih agg fs tracked res p hres hp
    · rw [writeLoop, if_neg h] at hres
      cases hc : writeChunks (epsw i) bs size size 0 with
      | none => rw [hc] at hres; exact absurd hres (by simp)
      | some chunks =>
        rw [hc] at hres
        rcases ih _ _ _ res p hres hp with hmem | hnotex
        · rcases mem_insertSet.mp hmem with rfl | hmem2
          · exact Or.inr (by simpa using h)
          · exact Or.inl hmem2
        · refine Or.inr ?_
          cases hx : fsExists fs p
          · rfl
          · have htrue := fsExists_append_left hx [(fileName i, chunks.flatten)]
            rw [htrue] at hnotex
            exact Bool.noConfusion hnotex

theorem writeLoop_tracked_exists (sha1 : List ℕ → List ℕ)
    (epsw : ℕ → ℕ → ℕ) (size bs : ℕ) :
    ∀ (is : List ℕ) (agg : List ℕ) (fs : FS) (tracked : List String) res,
      writeLoop sha1 epsw size bs is agg fs tracked = some res →
      (∀ p ∈ tracked, fsExists fs p = true) →
      ∀ p ∈ res.2.2, fsExists res.2.1 p = true := by
  intro is
  induction is with
  | nil =>
    intro agg fs tracked res hres htr
    obtain rfl : (agg, fs, tracked) = res := by simpa [writeLoop] using hres
    exact htr
  | cons i rest ih =>
    intro agg fs tracked res hres htr
    by_cases h : fsExists fs (fileName i)
    · rw [writeLoop, if_pos h] at hres
      exact ih agg fs tracked res hres htr
    · rw [writeLoop, if_neg h] at hres
      cases hc : writeChunks (epsw i) bs size size 0 with
      | none => rw [hc] at hres; exact absurd hres (by simp)
      | some chunks =>
        rw [hc] at hres
        refine ih _ _ _ res hres ?_
        intro p hp
        rcases mem_insertSet.mp hp with rfl | hmem
        · rw [fsExists_of_append (by simpa using h)]
          simp [fsExists, fsGet]
        · exact fsExists_append_left (htr p hmem) _

theorem writeLoop_tracked_nodup (sha1 : List ℕ → List ℕ)
    (epsw : ℕ → ℕ → ℕ) (size bs : ℕ) :
    ∀ (is : List ℕ) (agg : List ℕ) (fs : FS) (tracked : List String) res,
      writeLoop sha1 epsw size bs is agg fs tracked = some res →
      tracked.Nodup → res.2.2.Nodup := by
  intro is
  induction is with
  | nil =>
    intro agg fs tracked res hres hnd
    obtain rfl : (agg, fs, tracked) = res := by simpa [writeLoop] using hres
    exact hnd
  | cons i rest ih =>
    intro agg fs tracked res hres hnd
    by_cases h : fsExists fs (fileName i)
    · rw [writeLoop, if_pos h] at hres
      exact ih agg fs tracked res hres hnd
    · rw [writeLoop, if_neg h] at hres
      cases hc : writeChunks (epsw i) bs size size 0 with
      | none => rw [hc] at hres; exact absurd hres (by simp)
      | some chunks =>
        rw [hc] at hres
        exact ih _ _ _ res hres (nodup_insertSet hnd)

theorem writeLoop_keys_nodup (sha1 : List ℕ → List ℕ)
    (epsw : ℕ → ℕ → ℕ) (size bs : ℕ) :
    ∀ (is : List ℕ) (agg : List ℕ) (fs : FS) (tracked : List String) res,
      writeLoop sha1 epsw size bs is agg fs tracked = some res →
      (fs.map Prod.fst).Nodup → (res.2.1.map Prod.fst).Nodup := by
  intro is
  induction is with
  | nil =>
    intro agg fs tracked res hres hnd
    obtain rfl : (agg, fs, tracked) = res := by simpa [writeLoop] using hres
    exact hnd
  | cons i rest ih =>
    intro agg fs tracked res hres hnd
    by_cases h : fsExists fs (fileName i)
    · rw [writeLoop, if_pos h] at hres
      exact ih agg fs tracked res hres hnd
    · rw [writeLoop, if_neg h] at hres
      cases hc : writeChunks (epsw i) bs size size 0 with
      | none => rw [hc] at hres; exact absurd hres (by simp)
      | some chunks =>
        rw [hc] at hres
        refine ih _ _ _ res hres ?_
        rw [List.map_append]
        refine List.Nodup.append hnd (by simp) ?_
        intro a ha hb
        simp only [List.map_cons, List.map_nil, List.mem_singleton] at hb
        subst hb
        exact absurd (fsExists_true_iff.mpr ha) h

theorem writeLoop_decomposition (sha1 : List ℕ → List ℕ)
    (epsw : ℕ → ℕ → ℕ) (size bs : ℕ) :
    ∀ (is : List ℕ) (agg : List ℕ) (fs : FS) (tracked : List String) res,
      writeLoop sha1 epsw size bs is agg fs tracked = some res →
      ∃ new : FS, res.2.1 = fs ++ new ∧
        res.1 = List.foldl (fun a c => combine a (sha1 c)) agg (new.map Prod.snd) := by
  intro is
  induction is with
  | nil =>
    intro agg fs tracked res hres
    obtain rfl : (agg, fs, tracked) = res := by simpa [writeLoop] using hres
    exact ⟨[], by simp, by simp⟩
  | cons i rest ih =>
    intro agg fs tracked res hres
    by_cases h : fsExists fs (fileName i)
    · rw [writeLoop, if_pos h] at hres
      exact ih agg fs tracked res hres
    · rw [writeLoop, if_neg h] at hres
      cases hc : writeChunks (epsw i) bs size size 0 with
      | none => rw [hc] at hres; exact absurd hres (by simp)
      | some chunks =>
        rw [hc] at hres
        obtain ⟨new, hfs, hagg⟩ := ih _ _ _ res hres
        refine ⟨(fileName i, chunks.flatten) :: new, ?_, ?_⟩
        · rw [hfs, List.append_assoc]
          rfl
        · rw [hagg]
          simp [List.foldl_cons]

/-! ### Read-phase lemmas -/

theorem readLoop_total (sha1 : List ℕ → List ℕ) (bs : ℕ) (fs : FS) :
    ∀ (listing : List String) (agg : List ℕ),
      (∀ nm ∈ listing, fsExists fs nm = true) →
      readLoop sha1 bs fs listing agg =
        some (List.foldl
          (fun a nm => combine a (sha1 (if bs = 0 then [] else (fsGet fs nm).getD [])))
          agg listing) := by
  intro listing
  induction listing with
  | nil => intro agg _; rfl
  | cons nm rest ih =>
    intro agg hall
    have hex : (fsGet fs nm).isSome = true := hall nm (List.mem_cons_self nm rest)
    obtain ⟨c, hc⟩ := Option.isSome_iff_exists.mp hex
    simp only [readLoop, hc, List.foldl_cons, Option.getD_some]
    exact ih _ fun x hx => hall x (List.mem_cons_of_mem nm hx)

theorem foldl_combine_perm {α : Type} (g : α → List ℕ) {l1 l2 : List α}
    (hp : l1.Perm l2) :
    ∀ agg : List ℕ,
      List.foldl (fun a x => combine a (g x)) agg l1 =
        List.foldl (fun a x => combine a (g x)) agg l2 := by
  induction hp with
  | nil => intro agg; rfl
  | cons x _ ih => intro agg; simp only [List.foldl_cons]; exact ih _
  | swap x y l => intro agg; simp only [List.foldl_cons, combine_left_comm]
  | trans _ _ ih1 ih2 => intro agg; exact (ih1 agg).trans (ih2 agg)

theorem foldl_combine_congr {α : Type} (g1 g2 : α → List ℕ) :
    ∀ (l : List α), (∀ x ∈ l, g1 x = g2 x) → ∀ agg,
      List.foldl (fun a x => combine a (g1 x)) agg l =
        List.foldl (fun a x => combine a (g2 x)) agg l := by
  intro l
  induction l with
  | nil => intro _ agg; rfl
  | cons x rest ih =>
    intro hall agg
    simp only [List.foldl_cons]
    rw [hall x (List.mem_cons_self x rest)]
    exact ih (fun y hy => hall y (List.mem_cons_of_mem x hy)) _

/-! ### C1: write and read phases agree for every listing order -/

/-- C1: starting from an empty directory, for every `fileCount`, `fileSize`
and `bufferSize ≥ 1`, and for every order in which the read phase's directory
listing may enumerate the files the write phase produced, the hex aggregate
digest returned by the read phase equals the one returned by the write
phase. -/
theorem write_read_digest_match (sha1 : List ℕ → List ℕ) (epsw : ℕ → ℕ → ℕ)
    (count size bs : ℕ) (hbs : 1 ≤ bs) (tracked : List String)
    (hexw : String) (fs' : FS) (tracked' : List String)
    (hw : write sha1 epsw count size bs [] tracked = some (hexw, fs', tracked'))
    (listing : List String) (hl : listing.Perm (fs'.map Prod.fst)) :
    read sha1 bs fs' listing = some hexw := by
  obtain ⟨res, hres, hmap⟩ := Option.map_eq_some'.mp hw
  have hhex : toHex res.1 = hexw := congrArg Prod.fst hmap
  have hfs : res.2.1 = fs' := congrArg (fun t => t.2.1) hmap
  obtain ⟨new, hdecomp, hagg⟩ :=
    writeLoop_decomposition sha1 epsw size bs (List.range count) newDigest [] tracked res hres
  have hnew : fs' = new := by rw [← hfs, hdecomp, List.nil_append]
  have hnodup : (fs'.map Prod.fst).Nodup := by
    rw [← hfs]
    exact writeLoop_keys_nodup sha1 epsw size bs _ _ _ _ res hres (by simp)
  have hall : ∀ nm ∈ listing, fsExists fs' nm = true := fun nm hnm =>
    fsExists_true_iff.mpr (hl.mem_iff.mp hnm)
  have h1 := readLoop_total sha1 bs fs' listing newDigest hall
  have h2 :
      List.foldl (fun a nm =>
          combine a (sha1 (if bs = 0 then [] else (fsGet fs' nm).getD [])))
        newDigest listing =
      List.foldl (fun a nm =>
          combine a (sha1 (if bs = 0 then [] else (fsGet fs' nm).getD [])))
        newDigest (fs'.map Prod.fst) :=
    foldl_combine_perm _ hl newDigest
  have h3 :
      List.foldl (fun a nm =>
          combine a (sha1 (if bs = 0 then [] else (fsGet fs' nm).getD [])))
        newDigest (fs'.map Prod.fst) =
      List.foldl (fun a e =>
          combine a (sha1 (if bs = 0 then [] else (fsGet fs' e.1).getD [])))
        newDigest fs' :=
    List.foldl_map _ _ _ _
  have h4 :
      List.foldl (fun a e =>
          combine a (sha1 (if bs = 0 then [] else (fsGet fs' e.1).getD [])))
        newDigest fs' =
      List.foldl (fun a e => combine a (sha1 e.2)) newDigest fs' :=
    foldl_combine_congr _ _ fs'
      (fun e he => by
        rw [fsGet_of_mem_nodup hnodup e he]
        have hbz : ¬ bs = 0 := by omega
        simp [hbz]) newDigest
  have h5 :
      List.foldl (fun a e => combine a (sha1 e.2)) newDigest fs' =
        List.foldl (fun a c => combine a (sha1 c)) newDigest (fs'.map Prod.snd) :=
    (List.foldl_map Prod.snd (fun a c => combine a (sha1 c)) fs' newDigest).symm
  have h6 :
      List.foldl (fun a c => combine a (sha1 c)) newDigest (fs'.map Prod.snd) =
        res.1 := by
    rw [hnew]
    exact hagg.symm
  rw [read, h1]
  simp only [Option.map_some']
  rw [h2, h3, h4, h5, h6, hhex]

/-- Witness for C1: two files of three bytes with buffer size two, read back
in reversed listing order. -/
theorem write_read_digest_match_witness :
    read shaW 2 wOutW.2.1 ((wOutW.2.1.map Prod.fst).reverse) = some wOutW.1 :=
  write_read_digest_match shaW epsW 2 3 2 (by decide) [] wOutW.1 wOutW.2.1 wOutW.2.2
    (by decide) ((wOutW.2.1.map Prod.fst).reverse) (List.reverse_perm _)

/-! ### C7: pre-existing paths are skipped -/

/-- C7: in the write phase, an index whose path `{index}.bin` already exists
is skipped entirely: processing that index leaves the aggregate digest, the
directory and the tracked-file set untouched (no overwrite, no digest
contribution), and over a whole write phase a pre-existing path keeps its
content and is never added to the tracked-file set. -/
theorem write_skips_existing (sha1 : List ℕ → List ℕ) (epsw : ℕ → ℕ → ℕ)
    (size bs : ℕ) (i : ℕ) :
    (∀ (agg : List ℕ) (fs : FS) (tracked : List String),
      fsExists fs (fileName i) = true →
      writeLoop sha1 epsw size bs [i] agg fs tracked = some (agg, fs, tracked)) ∧
    (∀ (count : ℕ) (fs : FS) (tracked : List String) hexw fs' tracked',
      fsExists fs (fileName i) = true →
      write sha1 epsw count size bs fs tracked = some (hexw, fs', tracked') →
      fsGet fs' (fileName i) = fsGet fs (fileName i) ∧
      (fileName i ∈ tracked' ↔ fileName i ∈ tracked)) := by
  constructor
  · intro agg fs tracked h
    rw [writeLoop, if_pos h]
    rfl
  · intro count fs tracked hexw fs' tracked' h hw
    obtain ⟨res, hres, hmap⟩ := Option.map_eq_some'.mp hw
    have hfs : res.2.1 = fs' := congrArg (fun t => t.2.1) hmap
    have htr : res.2.2 = tracked' := congrArg (fun t => t.2.2) hmap
    have hframe := writeLoop_frame sha1 epsw size bs (List.range count) newDigest fs
      tracked res (fileName i) hres h
    rw [hfs, htr] at hframe
    exact hframe

/-- Witness for C7: index 0 with `0.bin` already present. -/
theorem write_skips_existing_witness :
    writeLoop shaW epsW 3 2 [0] newDigest [(fileName 0, [7])] [] =
      some (newDigest, [(fileName 0, [7])], []) :=
  (write_skips_existing shaW epsW 3 2 0).1 newDigest [(fileName 0, [7])] []
    (by decide)

/-! ### C5: zero iterations crash the rate computation -/

/-- C5 (evaluating the code at the failing input): with `iterations = 0` and
the default configuration, the loop is skipped, both elapsed accumulators
stay zero, and the rate computation `total_size / elapsed_write` divides by
zero, so the run fails rather than reporting a no-data state or an infinite
rate. -/
theorem zero_iterations_division_crash :
    run_benchmark ⟨4096, 100, 4096, 0, false, false⟩ shaW (fun _ => epsW)
      (fun _ l => l) (fun _ => 1) (fun _ => 1) [] = none := by rfl

/-! ### Orchestrator lemmas -/

theorem read_total (sha1 : List ℕ → List ℕ) (bs : ℕ) (fs : FS)
    (listing : List String) (hl : listing.Perm (fs.map Prod.fst)) :
    ∃ h, read sha1 bs fs listing = some h := by
  have hall : ∀ nm ∈ listing, fsExists fs nm = true := fun nm hnm =>
    fsExists_true_iff.mpr (hl.mem_iff.mp hnm)
  exact ⟨_, by rw [read, readLoop_total sha1 bs fs listing newDigest hall]; rfl⟩

theorem removeFiles_total :
    ∀ (paths : List String) (fs : FS), paths.Nodup →
      (∀ p ∈ paths, fsExists fs p = true) →
      ∃ fs2, removeFiles fs paths = some fs2 := by
  intro paths
  induction paths with
  | nil => exact fun fs _ _ => ⟨fs, rfl⟩
  | cons p rest ih =>
    intro fs hnd hall
    have hp : fsExists fs p = true := hall p (List.mem_cons_self p rest)
    have hrest : ∀ q ∈ rest, fsExists (fsRemove fs p) q = true := by
      intro q hq
      have hne : q ≠ p := fun hc => (List.nodup_cons.mp hnd).1 (hc ▸ hq)
      rw [fsExists_fsRemove_ne hne]
      exact hall q (List.mem_cons_of_mem p hq)
    obtain ⟨fs2, h2⟩ := ih (fsRemove fs p) (List.nodup_cons.mp hnd).2 hrest
    exact ⟨fs2, by rw [removeFiles, if_pos hp]; exact h2⟩

theorem removeFiles_frame :
    ∀ (paths : List String) (fs fs2 : FS) (r : String),
      removeFiles fs paths = some fs2 → r ∉ paths → fsGet fs2 r = fsGet fs r := by
  intro paths
  induction paths with
  | nil =>
    intro fs fs2 r h hr
    obtain rfl : fs = fs2 := by simpa [removeFiles] using h
    rfl
  | cons p rest ih =>
    intro fs fs2 r h hr
    rw [removeFiles] at h
    by_cases hp : fsExists fs p = true
    · rw [if_pos hp] at h
      have hrne : r ≠ p := fun hc => hr (hc ▸ List.mem_cons_self p rest)
      rw [ih (fsRemove fs p) fs2 r h fun hc => hr (List.mem_cons_of_mem p hc)]
      exact fsGet_fsRemove_ne hrne
    · rw [if_neg hp] at h
      exact absurd h (by simp)

theorem iterStep_skip (cfg : Cfg) (sha1 : List ℕ → List ℕ) (epsi : ℕ → ℕ → ℕ)
    (permi : List String → List String) (wt rt : ℚ) (st : BState) (h : String)
    (hwo : cfg.writeOnce = true) (hwh : st.writeHash = some h)
    (Hperm : ∀ l, (permi l).Perm l) :
    ∃ st1 t, iterStep cfg sha1 epsi permi wt rt st = some (st1, t) ∧
      st1.fs = st.fs ∧ st1.files = st.files ∧ st1.writeHash = some h ∧
      t.wrote = false ∧ t.writeHex = h ∧ t.removed = [] := by
  obtain ⟨rh, hrd⟩ := read_total sha1 cfg.bufferSize st.fs _ (Hperm _)
  refine ⟨⟨st.fs, st.files,
      if rh ≠ h then insertSet h st.writeHashes else st.writeHashes,
      if rh ≠ h then insertSet rh st.readHashes else st.readHashes,
      some h, st.elapsedWrite, st.elapsedRead + rt⟩,
    ⟨false, h, rh, []⟩, ?_, rfl, rfl, rfl, rfl, rfl, rfl⟩
  rw [iterStep]
  simp only [hwh, hwo, if_true, iterFinish, hrd]

theorem iterStep_first_writeOnce (cfg : Cfg) (sha1 : List ℕ → List ℕ)
    (epsi : ℕ → ℕ → ℕ) (permi : List String → List String) (wt rt : ℚ)
    (st : BState) (hwo : cfg.writeOnce = true) (hwh : st.writeHash = none)
    (hbs : 1 ≤ cfg.bufferSize) (Hperm : ∀ l, (permi l).Perm l)
    (h1 : st.files.Nodup) (h2 : ∀ p ∈ st.files, fsExists st.fs p = true) :
    ∃ st1 t, iterStep cfg sha1 epsi permi wt rt st = some (st1, t) ∧
      t.wrote = true ∧ t.removed = [] ∧ st1.writeHash = some t.writeHex ∧
      st1.files.Nodup ∧ ∀ p ∈ st1.files, fsExists st1.fs p = true := by
  obtain ⟨res, hres⟩ := writeLoop_total sha1 epsi hbs (List.range cfg.count)
    newDigest st.fs st.files
  have hw : write sha1 epsi cfg.count cfg.size cfg.bufferSize st.fs st.files =
      some (toHex res.1, res.2.1, res.2.2) := by
    rw [write, hres]; rfl
  obtain ⟨rh, hrd⟩ := read_total sha1 cfg.bufferSize res.2.1 _ (Hperm _)
  refine ⟨⟨res.2.1, res.2.2,
      if rh ≠ toHex res.1 then insertSet (toHex res.1) st.writeHashes
        else st.writeHashes,
      if rh ≠ toHex res.1 then insertSet rh st.readHashes else st.readHashes,
      some (toHex res.1), st.elapsedWrite + wt, st.elapsedRead + rt⟩,
    ⟨true, toHex res.1, rh, []⟩, ?_, rfl, rfl, rfl, ?_, ?_⟩
  · rw [iterStep]
    simp only [hwh, hw, Option.map_some', iterFinish, hrd, hwo, if_true]
  · exact writeLoop_tracked_nodup sha1 epsi cfg.size cfg.bufferSize _ _ _ _ res hres h1
  · exact writeLoop_tracked_exists sha1 epsi cfg.size cfg.bufferSize _ _ _ _ res hres h2

theorem runLoop_writeOnce (cfg : Cfg) (sha1 : List ℕ → List ℕ)
    (eps : ℕ → ℕ → ℕ → ℕ) (perm : ℕ → List String → List String)
    (wT rT : ℕ → ℚ) (hwo : cfg.writeOnce = true)
    (Hperm : ∀ i l, (perm i l).Perm l) (h : String) :
    ∀ (n i : ℕ) (st : BState), st.writeHash = some h →
      ∃ st' traces, runLoop cfg sha1 eps perm wT rT i n st = some (st', traces) ∧
        st'.fs = st.fs ∧ st'.files = st.files ∧ st'.writeHash = some h ∧
        traces.length = n ∧
        ∀ t ∈ traces, t.wrote = false ∧ t.writeHex = h ∧ t.removed = [] := by
  intro n
  induction n with
  | zero => exact fun i st hwh => ⟨st, [], rfl, rfl, rfl, hwh, rfl, by simp⟩
  | succ m ih =>
    intro i st hwh
    obtain ⟨st1, t, hstep, hfs1, hfiles1, hwh1, htw, hth, htr⟩ :=
      iterStep_skip cfg sha1 (eps i) (perm i) (wT i) (rT i) st h hwo hwh (Hperm i)
    obtain ⟨st', traces, hrun, hfs, hfiles, hwh', hlen, hall⟩ := ih (i + 1) st1 hwh1
    refine ⟨st', t :: traces, ?_, by rw [hfs, hfs1], by rw [hfiles, hfiles1],
      hwh', by simp [hlen], ?_⟩
    · rw [runLoop, hstep]
      simp only [Option.bind_eq_bind, Option.some_bind, hrun]
    · intro x hx
      rcases List.mem_cons.mp hx with rfl | hmem
      · exact ⟨htw, hth, htr⟩
      · exact hall x hmem

/-! ### C6: write-once behaviour -/

/-- C6: with `write_once` set and `iterations = n ≥ 1`, the write phase
executes exactly once, on the first iteration (when no prior write digest
exists): the per-iteration write flags are `true` followed by `n - 1` times
`false`; every iteration's comparison uses the first iteration's write
digest; no per-iteration cleanup removes anything, and the tracked files are
deleted exactly once, by the end-of-run cleanup after the final iteration. -/
theorem write_once_behavior (cfg : Cfg) (sha1 : List ℕ → List ℕ)
    (eps : ℕ → ℕ → ℕ → ℕ) (perm : ℕ → List String → List String)
    (wT rT : ℕ → ℚ) (fs0 : FS)
    (hwo : cfg.writeOnce = true) (hn : 1 ≤ cfg.iterations)
    (hbs : 1 ≤ cfg.bufferSize) (Hperm : ∀ i l, (perm i l).Perm l) :
    ∃ st traces fsF removed,
      runFiles cfg sha1 eps perm wT rT fs0 = some (st, traces, fsF, removed) ∧
      traces.map IterTrace.wrote = true :: List.replicate (cfg.iterations - 1) false ∧
      (∃ h, ∀ t ∈ traces, t.writeHex = h) ∧
      (∀ t ∈ traces, t.removed = []) ∧
      removed = st.files ∧ removed.Nodup := by
  obtain ⟨m, hm⟩ : ∃ m, cfg.iterations = m + 1 := ⟨cfg.iterations - 1, by omega⟩
  obtain ⟨st1, t0, hstep, htw, htr0, hwh1, hnd1, hex1⟩ :=
    iterStep_first_writeOnce cfg sha1 (eps 0) (perm 0) (wT 0) (rT 0)
      (initState cfg fs0) hwo rfl hbs (Hperm 0) List.nodup_nil (by simp [initState])
  obtain ⟨st', traces1, hrun1, hfs, hfiles, hwh', hlen, hall⟩ :=
    runLoop_writeOnce cfg sha1 eps perm wT rT hwo Hperm t0.writeHex m 1 st1 hwh1
  have hrunAll : runLoop cfg sha1 eps perm wT rT 0 (m + 1) (initState cfg fs0) =
      some (st', t0 :: traces1) := by
    rw [runLoop, hstep]
    simp only [Option.bind_eq_bind, Option.some_bind, hrun1]
  have hnd' : st'.files.Nodup := by rw [hfiles]; exact hnd1
  have hex' : ∀ p ∈ st'.files, fsExists st'.fs p = true := by
    rw [hfiles, hfs]; exact hex1
  obtain ⟨fsF, hrem⟩ := removeFiles_total st'.files st'.fs hnd' hex'
  refine ⟨st', t0 :: traces1, fsF, st'.files, ?_, ?_, ?_, ?_, rfl, hnd'⟩
  · rw [runFiles, hm, hrunAll]
    simp only [Option.bind_eq_bind, Option.some_bind, hrem]
  · have hmap : traces1.map IterTrace.wrote = List.replicate m false := by
      refine List.eq_replicate_iff.mpr ⟨by simp [hlen], ?_⟩
      intro b hb
      obtain ⟨t, ht, rfl⟩ := List.mem_map.mp hb
      exact (hall t ht).1
    simp only [List.map_cons, htw, hmap, hm, Nat.add_sub_cancel]
  · refine ⟨t0.writeHex, ?_⟩
    intro t ht
    rcases List.mem_cons.mp ht with rfl | hmem
    · rfl
    · exact (hall t hmem).2.1
  · intro t ht
    rcases List.mem_cons.mp ht with rfl | hmem
    · exact htr0
    · exact (hall t hmem).2.2

/-- Witness for C6: a concrete write-once run with two iterations completes
normally. -/
theorem write_once_behavior_witness :
    (runFiles ⟨2, 1, 1, 2, false, true⟩ shaW (fun _ => epsW) (fun _ l => l)
      (fun _ => 1) (fun _ => 1) []).isSome = true := by
  obtain ⟨st, traces, fsF, removed, hrun, -, -, -, -, -⟩ :=
    write_once_behavior ⟨2, 1, 1, 2, false, true⟩ shaW (fun _ => epsW)
      (fun _ l => l) (fun _ => 1) (fun _ => 1) [] rfl (by decide) (by decide)
      (fun _ l => List.Perm.refl l)
  rw [hrun]
  rfl

/-! ### C8: mismatches are recorded and are non-fatal -/

theorem iterFinish_hashes (cfg : Cfg) (sha1 : List ℕ → List ℕ)
    (permi : List String → List String) (rt : ℚ) (st : BState) (wrote : Bool)
    (wh : String) (fs1 : FS) (files1 : List String) (ew : ℚ)
    (st' : BState) (t : IterTrace)
    (h : iterFinish cfg sha1 permi rt st wrote wh fs1 files1 ew = some (st', t)) :
    t.writeHex = wh ∧
    st'.writeHashes =
      (if t.readHex ≠ wh then insertSet wh st.writeHashes else st.writeHashes) ∧
    st'.readHashes =
      (if t.readHex ≠ wh then insertSet t.readHex st.readHashes else st.readHashes) := by
  rw [iterFinish] at h
  split at h
  · exact absurd h (by simp)
  · split at h
    · injection h with hpair
      rw [Prod.mk.injEq] at hpair
      obtain ⟨rfl, rfl⟩ := hpair
      exact ⟨rfl, rfl, rfl⟩
    · split at h
      · exact absurd h (by simp)
      · injection h with hpair
        rw [Prod.mk.injEq] at hpair
        obtain ⟨rfl, rfl⟩ := hpair
        exact ⟨rfl, rfl, rfl⟩

theorem iterStep_hashes (cfg : Cfg) (sha1 : List ℕ → List ℕ)
    (epsi : ℕ → ℕ → ℕ) (permi : List String → List String) (wt rt : ℚ)
    (st st' : BState) (t : IterTrace)
    (h : iterStep cfg sha1 epsi permi wt rt st = some (st', t)) :
    (t.readHex ≠ t.writeHex →
      t.writeHex ∈ st'.writeHashes ∧ t.readHex ∈ st'.readHashes) ∧
    (∀ x ∈ st.writeHashes, x ∈ st'.writeHashes) ∧
    (∀ x ∈ st.readHashes, x ∈ st'.readHashes) := by
  rw [iterStep] at h
  split at h
  · exact absurd h (by simp)
  · obtain ⟨hthex, hwset, hrset⟩ :=
      iterFinish_hashes _ _ _ _ _ _ _ _ _ _ _ _ h
    subst hthex
    refine ⟨?_, ?_, ?_⟩
    · intro hne
      rw [hwset, hrset, if_pos hne, if_pos hne]
      exact ⟨mem_insertSet.mpr (Or.inl rfl), mem_insertSet.mpr (Or.inl rfl)⟩
    · intro x hx
      rw [hwset]
      by_cases hc : t.readHex ≠ t.writeHex
      · rw [if_pos hc]
        exact mem_insertSet.mpr (Or.inr hx)
      · rw [if_neg hc]
        exact hx
    · intro x hx
      rw [hrset]
      by_cases hc : t.readHex ≠ t.writeHex
      · rw [if_pos hc]
        exact mem_insertSet.mpr (Or.inr hx)
      · rw [if_neg hc]
        exact hx

theorem runLoop_inv_aux (cfg : Cfg) (sha1 : List ℕ → List ℕ)
    (eps : ℕ → ℕ → ℕ → ℕ) (perm : ℕ → List String → List String)
    (wT rT : ℕ → ℚ) :
    ∀ (n i : ℕ) (st st' : BState) (traces : List IterTrace),
      runLoop cfg sha1 eps perm wT rT i n st = some (st', traces) →
      traces.length = n ∧
      (∀ x ∈ st.writeHashes, x ∈ st'.writeHashes) ∧
      (∀ x ∈ st.readHashes, x ∈ st'.readHashes) ∧
      ∀ t ∈ traces, t.readHex ≠ t.writeHex →
        t.writeHex ∈ st'.writeHashes ∧ t.readHex ∈ st'.readHashes := by
  intro n
  induction n with
  | zero =>
    intro i st st' traces h
    obtain ⟨rfl, rfl⟩ : st = st' ∧ [] = traces := by simpa [runLoop] using h
    exact ⟨rfl, fun x hx => hx, fun x hx => hx, by simp⟩
  | succ m ih =>
    intro i st st' traces h
    rw [runLoop] at h
    rcases hs : iterStep cfg sha1 (eps i) (perm i) (wT i) (rT i) st with _ | ⟨st1, t⟩
    · rw [hs] at h
      exact absurd h (by simp)
    · rw [hs] at h
      simp only [Option.bind_eq_bind, Option.some_bind] at h
      rcases hr : runLoop cfg sha1 eps perm wT rT (i + 1) m st1 with _ | ⟨st2, ts⟩
      · rw [hr] at h
        simp at h
      · rw [hr] at h
        simp only [Option.some_bind] at h
        obtain ⟨heq1, heq2⟩ : st2 = st' ∧ t :: ts = traces := by simpa using h
        subst heq1
        subst heq2
        obtain ⟨hlen, hwm, hrm, hrec⟩ := ih (i + 1) st1 _ _ hr
        obtain ⟨hstepRec, hstepW, hstepR⟩ :=
          iterStep_hashes cfg sha1 (eps i) (perm i) (wT i) (rT i) st st1 t hs
        refine ⟨by simp [hlen], fun x hx => hwm x (hstepW x hx),
          fun x hx => hrm x (hstepR x hx), ?_⟩
        intro u hu hne
        rcases List.mem_cons.mp hu with rfl | hmem
        · obtain ⟨hwmem, hrmem⟩ := hstepRec hne
          exact ⟨hwm _ hwmem, hrm _ hrmem⟩
        · exact hrec u hmem hne

theorem runFiles_inv (cfg : Cfg) (sha1 : List ℕ → List ℕ)
    (eps : ℕ → ℕ → ℕ → ℕ) (perm : ℕ → List String → List String)
    (wT rT : ℕ → ℚ) (fs0 : FS) (st : BState) (traces : List IterTrace)
    (fsF : FS) (removed : List String)
    (h : runFiles cfg sha1 eps perm wT rT fs0 = some (st, traces, fsF, removed)) :
    runLoop cfg sha1 eps perm wT rT 0 cfg.iterations (initState cfg fs0) =
      some (st, traces) ∧
    removeFiles st.fs st.files = some fsF ∧ removed = st.files := by
  rw [runFiles] at h
  rcases hr : runLoop cfg sha1 eps perm wT rT 0 cfg.iterations (initState cfg fs0)
    with _ | ⟨st0, traces0⟩
  · rw [hr] at h
    exact absurd h (by simp)
  · rw [hr] at h
    simp only [Option.bind_eq_bind, Option.some_bind] at h
    rcases hm : removeFiles st0.fs st0.files with _ | fsF0
    · rw [hm] at h
      simp at h
    · rw [hm] at h
      simp only [Option.some_bind, Option.some.injEq, Prod.mk.injEq] at h
      obtain ⟨rfl, rfl, rfl, hrem⟩ := h
      exact ⟨rfl, hm, hrem.symm⟩

theorem format_total_of_one_le {q : ℚ} (h : 1 ≤ q) : ∃ r, format q = some r := by
  rcases lt_or_le q 1024 with h1 | h1
  · exact ⟨_, format_tier_B h h1⟩
  · rcases lt_or_le q (1024 ^ 2) with h2 | h2
    · exact ⟨_, format_tier_KiB h1 h2⟩
    · rcases lt_or_le q (1024 ^ 3) with h3 | h3
      · exact ⟨_, format_tier_MiB h2 h3⟩
      · rcases lt_or_le q (1024 ^ 4) with h4 | h4
        · exact ⟨_, format_tier_GiB h3 h4⟩
        · exact ⟨_, format_tier_TiB h4⟩

theorem report_total (size count : ℕ) (ew er : ℚ)
    (hew : ew ≠ 0) (her : er ≠ 0)
    (hws : 1 ≤ ((size * count : ℕ) : ℚ) / ew)
    (hrs : 1 ≤ ((size * count : ℕ) : ℚ) / er)
    (hc : count ≠ 0) :
    ∃ rep, report size count ew er = some rep := by
  obtain ⟨⟨wv, wu⟩, hwf⟩ := format_total_of_one_le hws
  obtain ⟨⟨rv, ru⟩, hrf⟩ := format_total_of_one_le hrs
  have hcq : (count : ℚ) ≠ 0 := Nat.cast_ne_zero.mpr hc
  refine ⟨⟨wv, wu, rv, ru, 1000 * ew / count, 1000 * er / count⟩, ?_⟩
  rw [report]
  simp only [pyDiv, if_neg hew, if_neg her, if_neg hcq, Option.bind_eq_bind,
    Option.some_bind, hwf, hrf]

/-- C8: in every iteration whose read digest differs from the write digest,
both digests are recorded into the mismatch sets (set insertion, so duplicate
pairs collapse); a mismatch is non-fatal: the loop runs all `iterations`
iterations and, whenever the final report's divisions are defined, the whole
run returns normally. -/
theorem mismatch_nonfatal (cfg : Cfg) (sha1 : List ℕ → List ℕ)
    (eps : ℕ → ℕ → ℕ → ℕ) (perm : ℕ → List String → List String)
    (wT rT : ℕ → ℚ) (fs0 : FS) (st : BState) (traces : List IterTrace)
    (fsF : FS) (removed : List String)
    (hrun : runFiles cfg sha1 eps perm wT rT fs0 = some (st, traces, fsF, removed))
    (hew : st.elapsedWrite ≠ 0) (her : st.elapsedRead ≠ 0)
    (hws : 1 ≤ ((cfg.size * cfg.count : ℕ) : ℚ) / st.elapsedWrite)
    (hrs : 1 ≤ ((cfg.size * cfg.count : ℕ) : ℚ) / st.elapsedRead)
    (hc : cfg.count ≠ 0) :
    (∃ out, run_benchmark cfg sha1 eps perm wT rT fs0 = some out) ∧
    traces.length = cfg.iterations ∧
    ∀ t ∈ traces, t.readHex ≠ t.writeHex →
      t.writeHex ∈ st.writeHashes ∧ t.readHex ∈ st.readHashes := by
  obtain ⟨hloop, hrem, hremoved⟩ :=
    runFiles_inv cfg sha1 eps perm wT rT fs0 st traces fsF removed hrun
  obtain ⟨hlen, -, -, hrec⟩ := runLoop_inv_aux cfg sha1 eps perm wT rT
    cfg.iterations 0 (initState cfg fs0) st traces hloop
  obtain ⟨rep, hrep⟩ := report_total cfg.size cfg.count st.elapsedWrite
    st.elapsedRead hew her hws hrs hc
  refine ⟨⟨(st, traces, fsF, removed, rep), ?_⟩, hlen, hrec⟩
  rw [run_benchmark, hrun]
  simp only [Option.bind_eq_bind, Option.some_bind, hrep]

/-- Witness for C8: a concrete one-iteration run completes normally. -/
theorem mismatch_nonfatal_witness :
    (run_benchmark ⟨2, 1, 1, 1, false, false⟩ shaW (fun _ => epsW) (fun _ l => l)
      (fun _ => 1) (fun _ => 1) []).isSome = true := by
  obtain ⟨⟨out, hout⟩, -, -⟩ :=
    mismatch_nonfatal ⟨2, 1, 1, 1, false, false⟩ shaW (fun _ => epsW)
      (fun _ l => l) (fun _ => 1) (fun _ => 1) [] rOutW.1 rOutW.2.1 rOutW.2.2.1
      rOutW.2.2.2 (Option.some_get (by decide)).symm
      (by with_unfolding_all decide) (by with_unfolding_all decide)
      (by with_unfolding_all decide) (by with_unfolding_all decide) (by decide)
  rw [hout]
  rfl

/-! ### C10: pre-existing files are never deleted -/

theorem iterFinish_preserves (cfg : Cfg) (sha1 : List ℕ → List ℕ)
    (permi : List String → List String) (rt : ℚ) (fs0 : FS) (st : BState)
    (wrote : Bool) (wh : String) (fs1 : FS) (files1 : List String) (ew : ℚ)
    (Hperm : ∀ l, (permi l).Perm l)
    (g1 : files1.Nodup) (g2 : ∀ p ∈ files1, fsExists fs1 p = true)
    (g3 : ∀ p c, fsGet fs0 p = some c → fsGet fs1 p = some c)
    (g4 : ∀ p ∈ files1, fsGet fs0 p = none) :
    ∃ st' t, iterFinish cfg sha1 permi rt st wrote wh fs1 files1 ew = some (st', t) ∧
      st'.files.Nodup ∧ (∀ p ∈ st'.files, fsExists st'.fs p = true) ∧
      (∀ p c, fsGet fs0 p = some c → fsGet st'.fs p = some c) ∧
      (∀ p ∈ st'.files, fsGet fs0 p = none) ∧
      ∀ q ∈ t.removed, fsGet fs0 q = none := by
  obtain ⟨rh, hrd⟩ := read_total sha1 cfg.bufferSize fs1 _ (Hperm _)
  by_cases hwo : cfg.writeOnce = true
  · refine ⟨⟨fs1, files1,
        if rh ≠ wh then insertSet wh st.writeHashes else st.writeHashes,
        if rh ≠ wh then insertSet rh st.readHashes else st.readHashes,
        some wh, ew, st.elapsedRead + rt⟩, ⟨wrote, wh, rh, []⟩,
      ?_, g1, g2, g3, g4, by simp⟩
    simp only [iterFinish, hrd, hwo, if_true]
  · obtain ⟨fs2, hrm⟩ := removeFiles_total files1 fs1 g1 g2
    refine ⟨⟨fs2, [],
        if rh ≠ wh then insertSet wh st.writeHashes else st.writeHashes,
        if rh ≠ wh then insertSet rh st.readHashes else st.readHashes,
        some wh, ew, st.elapsedRead + rt⟩, ⟨wrote, wh, rh, files1⟩,
      ?_, List.nodup_nil, by simp, ?_, by simp, g4⟩
    · simp only [iterFinish, hrd, hwo, Bool.false_eq_true, if_false, hrm]
    · intro p c hpc
      have hnotin : p ∉ files1 := fun hmem => by
        rw [g4 p hmem] at hpc
        exact Option.noConfusion hpc
      rw [removeFiles_frame files1 fs1 fs2 p hrm hnotin]
      exact g3 p c hpc

theorem iterStep_preserves (cfg : Cfg) (sha1 : List ℕ → List ℕ)
    (epsi : ℕ → ℕ → ℕ) (permi : List String → List String) (wt rt : ℚ)
    (fs0 : FS) (st : BState)
    (hbs : 1 ≤ cfg.bufferSize) (Hperm : ∀ l, (permi l).Perm l)
    (h1 : st.files.Nodup) (h2 : ∀ p ∈ st.files, fsExists st.fs p = true)
    (h3 : ∀ p c, fsGet fs0 p = some c → fsGet st.fs p = some c)
    (h4 : ∀ p ∈ st.files, fsGet fs0 p = none) :
    ∃ st' t, iterStep cfg sha1 epsi permi wt rt st = some (st', t) ∧
      st'.files.Nodup ∧ (∀ p ∈ st'.files, fsExists st'.fs p = true) ∧
      (∀ p c, fsGet fs0 p = some c → fsGet st'.fs p = some c) ∧
      (∀ p ∈ st'.files, fsGet fs0 p = none) ∧
      ∀ q ∈ t.removed, fsGet fs0 q = none := by
  have hwbranch : ∀ res, writeLoop sha1 epsi cfg.size cfg.bufferSize
      (List.range cfg.count) newDigest st.fs st.files = some res →
      res.2.2.Nodup ∧ (∀ p ∈ res.2.2, fsExists res.2.1 p = true) ∧
      (∀ p c, fsGet fs0 p = some c → fsGet res.2.1 p = some c) ∧
      (∀ p ∈ res.2.2, fsGet fs0 p = none) := by
    intro res hres
    refine ⟨writeLoop_tracked_nodup sha1 epsi cfg.size cfg.bufferSize _ _ _ _ res hres h1,
      writeLoop_tracked_exists sha1 epsi cfg.size cfg.bufferSize _ _ _ _ res hres h2,
      ?_, ?_⟩
    · intro p c hpc
      have hex : fsExists st.fs p = true := by
        unfold fsExists
        rw [h3 p c hpc]
        rfl
      have hfr := (writeLoop_frame sha1 epsi cfg.size cfg.bufferSize _ _ _ _
        res p hres hex).1
      rw [hfr]
      exact h3 p c hpc
    · intro p hp
      rcases writeLoop_tracked_provenance sha1 epsi cfg.size cfg.bufferSize _ _ _ _
          res p hres hp with hmem | hnex
      · exact h4 p hmem
      · cases hg : fsGet fs0 p with
        | none => rfl
        | some c =>
          have hst := h3 p c hg
          have hT : fsExists st.fs p = true := by
            unfold fsExists
            rw [hst]
            rfl
          rw [hT] at hnex
          exact Bool.noConfusion hnex
  rcases hwh : st.writeHash with _ | h0
  · obtain ⟨res, hres⟩ := writeLoop_total sha1 epsi hbs (List.range cfg.count)
      newDigest st.fs st.files
    have hw : write sha1 epsi cfg.count cfg.size cfg.bufferSize st.fs st.files =
        some (toHex res.1, res.2.1, res.2.2) := by
      rw [write, hres]; rfl
    obtain ⟨g1, g2, g3, g4⟩ := hwbranch res hres
    obtain ⟨st', t, hfin, k1, k2, k3, k4, k5⟩ :=
      iterFinish_preserves cfg sha1 permi rt fs0 st true (toHex res.1) res.2.1
        res.2.2 (st.elapsedWrite + wt) Hperm g1 g2 g3 g4
    refine ⟨st', t, ?_, k1, k2, k3, k4, k5⟩
    rw [iterStep]
    simp only [hwh, hw, Option.map_some']
    exact hfin
  · by_cases hwo : cfg.writeOnce = true
    · obtain ⟨st', t, hfin, k1, k2, k3, k4, k5⟩ :=
        iterFinish_preserves cfg sha1 permi rt fs0 st false h0 st.fs st.files
          st.elapsedWrite Hperm h1 h2 h3 h4
      refine ⟨st', t, ?_, k1, k2, k3, k4, k5⟩
      rw [iterStep]
      simp only [hwh, hwo, if_true]
      exact hfin
    · obtain ⟨res, hres⟩ := writeLoop_total sha1 epsi hbs (List.range cfg.count)
        newDigest st.fs st.files
      have hw : write sha1 epsi cfg.count cfg.size cfg.bufferSize st.fs st.files =
          some (toHex res.1, res.2.1, res.2.2) := by
        rw [write, hres]; rfl
      obtain ⟨g1, g2, g3, g4⟩ := hwbranch res hres
      obtain ⟨st', t, hfin, k1, k2, k3, k4, k5⟩ :=
        iterFinish_preserves cfg sha1 permi rt fs0 st true (toHex res.1) res.2.1
          res.2.2 (st.elapsedWrite + wt) Hperm g1 g2 g3 g4
      refine ⟨st', t, ?_, k1, k2, k3, k4, k5⟩
      rw [iterStep]
      simp only [hwh, hwo, Bool.false_eq_true, if_false, hw, Option.map_some']
      exact hfin

theorem runLoop_preserves (cfg : Cfg) (sha1 : List ℕ → List ℕ)
    (eps : ℕ → ℕ → ℕ → ℕ) (perm : ℕ → List String → List String)
    (wT rT : ℕ → ℚ) (fs0 : FS)
    (hbs : 1 ≤ cfg.bufferSize) (Hperm : ∀ i l, (perm i l).Perm l) :
    ∀ (n i : ℕ) (st : BState),
      st.files.Nodup → (∀ p ∈ st.files, fsExists st.fs p = true) →
      (∀ p c, fsGet fs0 p = some c → fsGet st.fs p = some c) →
      (∀ p ∈ st.files, fsGet fs0 p = none) →
      ∃ st' traces, runLoop cfg sha1 eps perm wT rT i n st = some (st', traces) ∧
        st'.files.Nodup ∧ (∀ p ∈ st'.files, fsExists st'.fs p = true) ∧
        (∀ p c, fsGet fs0 p = some c → fsGet st'.fs p = some c) ∧
        (∀ p ∈ st'.files, fsGet fs0 p = none) ∧
        ∀ t ∈ traces, ∀ q ∈ t.removed, fsGet fs0 q = none := by
  intro n
  induction n with
  | zero =>
    intro i st k1 k2 k3 k4
    exact ⟨st, [], rfl, k1, k2, k3, k4, by simp⟩
  | succ m ih =>
    intro i st k1 k2 k3 k4
    obtain ⟨st1, t, hstep, j1, j2, j3, j4, j5⟩ :=
      iterStep_preserves cfg sha1 (eps i) (perm i) (wT i) (rT i) fs0 st hbs
        (Hperm i) k1 k2 k3 k4
    obtain ⟨st', traces, hrun, l1, l2, l3, l4, l5⟩ := ih (i + 1) st1 j1 j2 j3 j4
    refine ⟨st', t :: traces, ?_, l1, l2, l3, l4, ?_⟩
    · rw [runLoop, hstep]
      simp only [Option.bind_eq_bind, Option.some_bind, hrun]
    · intro u hu q hq
      rcases List.mem_cons.mp hu with rfl | hmem
      · exact j5 q hq
      · exact l5 u hmem q hq

/-- C10: cleanup only deletes tracked paths and the write phase tracks only
paths it newly created, so when the empty-before-run option is off, every
file that existed in the directory before the run survives both every
per-iteration cleanup and the end-of-run cleanup, with its content intact. -/
theorem preexisting_files_preserved (cfg : Cfg) (sha1 : List ℕ → List ℕ)
    (eps : ℕ → ℕ → ℕ → ℕ) (perm : ℕ → List String → List String)
    (wT rT : ℕ → ℚ) (fs0 : FS)
    (hempty : cfg.empty = false) (hbs : 1 ≤ cfg.bufferSize)
    (Hperm : ∀ i l, (perm i l).Perm l) :
    ∃ st traces fsF removed,
      runFiles cfg sha1 eps perm wT rT fs0 = some (st, traces, fsF, removed) ∧
      ∀ p c, fsGet fs0 p = some c →
        fsGet fsF p = some c ∧ p ∉ removed ∧ ∀ t ∈ traces, p ∉ t.removed := by
  have hfs : (initState cfg fs0).fs = fs0 := by
    simp [initState, hempty]
  obtain ⟨st, traces, hrun, l1, l2, l3, l4, l5⟩ :=
    runLoop_preserves cfg sha1 eps perm wT rT fs0 hbs Hperm cfg.iterations 0
      (initState cfg fs0) List.nodup_nil (by simp [initState])
      (fun p c hpc => by rw [hfs]; exact hpc) (by simp [initState])
  obtain ⟨fsF, hrem⟩ := removeFiles_total st.files st.fs l1 l2
  refine ⟨st, traces, fsF, st.files, ?_, ?_⟩
  · rw [runFiles, hrun]
    simp only [Option.bind_eq_bind, Option.some_bind, hrem]
  · intro p c hpc
    have hnotin : p ∉ st.files := fun hmem => by
      rw [l4 p hmem] at hpc
      exact Option.noConfusion hpc
    refine ⟨?_, hnotin, ?_⟩
    · rw [removeFiles_frame st.files st.fs fsF p hrem hnotin]
      exact l3 p c hpc
    · intro t ht hq
      rw [l5 t ht p hq] at hpc
      exact Option.noConfusion hpc

/-- Witness for C10: a run over a directory holding an unrelated file
completes. -/
theorem preexisting_files_preserved_witness :
    (runFiles ⟨2, 1, 1, 1, false, false⟩ shaW (fun _ => epsW) (fun _ l => l)
      (fun _ => 1) (fun _ => 1) [("keep.txt", [9])]).isSome = true := by
  obtain ⟨st, traces, fsF, removed, hrun, -⟩ :=
    preexisting_files_preserved ⟨2, 1, 1, 1, false, false⟩ shaW (fun _ => epsW)
      (fun _ l => l) (fun _ => 1) (fun _ => 1) [("keep.txt", [9])] rfl
      (by decide) (fun _ l => List.Perm.refl l)
  rw [hrun]
  rfl

end StorageBench
